import Mathlib

set_option maxRecDepth 4000

/-!
Shallow embedding of the BCS, address, Move-argument and unit-conversion
utilities of the `n8n-nodes-aptos` package
(`src/nodes/Aptos/utils/bcsUtils.ts`, `accountUtils.ts`, `moveUtils.ts`,
`unitConverter.ts`), together with theorems settling the specification
claims about them.

Modelling conventions:
* JavaScript numbers that hold integers are modelled as `Int`;
  `Uint8Array`s as `List Nat` whose entries are bytes (`< 256`);
  JavaScript `bigint` as `Int`; strings as `List Char`.
* The 32-bit coercion `ToInt32` that JavaScript applies to the operands of
  `&`, `|`, `<<`, `>>` is modelled explicitly (`jsToInt32` and friends).
* Functions that can throw return `Option`/`Except`; a loop of the source
  that can run forever is modelled with fuel, `none` marking divergence.
-/

/-! ## JavaScript 32-bit operator semantics -/

/-- ECMAScript `ToInt32`: reduce an integer modulo `2^32` into
`[-2^31, 2^31)`. -/
def jsToInt32 (n : Int) : Int :=
  (n + 2 ^ 31) % 2 ^ 32 - 2 ^ 31

/-- JavaScript `x & 0xff` (the operand passes through `ToInt32`; masking a
two's-complement int32 with `0xff` yields its low byte, `x mod 256`). -/
def jsAnd255 (n : Int) : Nat :=
  ((jsToInt32 n) % 256).toNat

/-- JavaScript `x & 0x7f` (as `jsAnd255`, with mask `0x7f`). -/
def jsAnd127 (n : Int) : Nat :=
  ((jsToInt32 n) % 128).toNat

/-- JavaScript `x >> s` (sign-propagating shift: both operands pass through
`ToInt32`, the shift count is masked to 5 bits; an arithmetic right shift
of an int32 is floor division by `2^s`). -/
def jsShr (n : Int) (s : Nat) : Int :=
  (jsToInt32 n).fdiv (2 ^ (s % 32))

/-- JavaScript `x << s` (operands pass through `ToInt32`, shift count masked
to 5 bits, the 32-bit product wraps back into int32 range). -/
def jsShl (n : Int) (s : Nat) : Int :=
  jsToInt32 (jsToInt32 n * 2 ^ (s % 32))

/-- JavaScript `x | y` on int32: both operands pass through `ToInt32`, their
unsigned 32-bit patterns (`x mod 2^32`) are or-ed bitwise, and the result is
reinterpreted as a signed int32. -/
def jsOr (a b : Int) : Int :=
  jsToInt32 (Int.ofNat ((a % 2 ^ 32).toNat ||| (b % 2 ^ 32).toNat))

/-! ## bcsUtils.ts: fixed-width integer encoders -/

/-- `encodeU8(value)`: `new Uint8Array([value & 0xff])`. -/
def encodeU8 (value : Int) : List Nat :=
  [jsAnd255 value]

/-- `encodeU16(value)`: two little-endian bytes `value & 0xff`,
`(value >> 8) & 0xff`. -/
def encodeU16 (value : Int) : List Nat :=
  [jsAnd255 value, jsAnd255 (jsShr value 8)]

/-- `encodeU32(value)`: four little-endian bytes
`(value >> 8*i) & 0xff` for `i = 0..3`. -/
def encodeU32 (value : Int) : List Nat :=
  [jsAnd255 value, jsAnd255 (jsShr value 8),
   jsAnd255 (jsShr value 16), jsAnd255 (jsShr value 24)]

/-- Shared loop body of `encodeU64`/`encodeU128`/`encodeU256`:
`bytes[i] = Number((bigValue >> BigInt(i*8)) & BigInt(0xff))` for
`i = 0..w-1`.  A `bigint` shift is arithmetic (floor division) and
`& 0xffn` takes the two's-complement low byte (`mod 256`). -/
def bigIntLEBytes (w : Nat) (value : Int) : List Nat :=
  (List.range w).map fun i => ((value.fdiv (2 ^ (8 * i))) % 256).toNat

/-- `encodeU64(value)`: eight little-endian bytes of `BigInt(value)`. -/
def encodeU64 (value : Int) : List Nat :=
  bigIntLEBytes 8 value

/-- `encodeU128(value)`: sixteen little-endian bytes. -/
def encodeU128 (value : Int) : List Nat :=
  bigIntLEBytes 16 value

/-- `encodeU256(value)`: thirty-two little-endian bytes. -/
def encodeU256 (value : Int) : List Nat :=
  bigIntLEBytes 32 value

/-- `encodeBool(value)`: `[value ? 1 : 0]` (JavaScript truthiness test on
the raw argument). -/
def encodeBool (b : Bool) : List Nat :=
  [if b then 1 else 0]

/-! ## bcsUtils.ts: decoders -/

/-- Loop of `decodeU64`: `result |= BigInt(bytes[i]) << BigInt(i * 8)`.
All quantities stay non-negative, so the arbitrary-precision `bigint`
or/shift agree with `Nat.lor`/`Nat.shiftLeft`. -/
def decodeLEAcc : List Nat → Nat → Nat → Nat
  | [], _, acc => acc
  | b :: rest, i, acc => decodeLEAcc rest (i + 1) (acc ||| b <<< (8 * i))

/-- `decodeU64(bytes)`: folds the first `min 8 bytes.length` bytes
little-endian (`for i in 0..7 while i < bytes.length`). -/
def decodeU64 (bytes : List Nat) : Nat :=
  decodeLEAcc (bytes.take 8) 0 0

/-- The little-endian value of a byte list (base-256, index 0 least
significant); used to state what the decoders compute. -/
def natFromLE : List Nat → Nat
  | [] => 0
  | b :: rest => b + 256 * natFromLE rest

/-! ## bcsUtils.ts: ULEB128 -/

/-- Body of `encodeUleb128`'s `do/while` loop.  `value` is a JavaScript
number, and `value & 0x7f` / `value >>= 7` use int32 semantics, so for
inputs outside `[0, 2^31)` the loop wraps — and for inputs whose int32
image goes negative it never terminates (a negative int32 stays negative
under `>>= 7`).  The loop is modelled with fuel; `none` marks divergence.
A terminating run needs at most 6 iterations (one `ToInt32` step plus at
most `ceil 32/7` shifts), so fuel 64 is conservative. -/
def encodeUleb128Go : Nat → Int → Option (List Nat)
  | 0, _ => none
  | fuel + 1, value =>
    let byte := jsAnd127 value
    let value2 := jsShr value 7
    if value2 = 0 then
      some [byte]
    else
      (encodeUleb128Go fuel value2).map fun rest => (byte ||| 128) :: rest

/-- `encodeUleb128(value)`. -/
def encodeUleb128 (value : Int) : Option (List Nat) :=
  encodeUleb128Go 64 value

/-- Loop of `decodeUleb128`, recursing on the bytes still ahead of the
cursor.  Entries model `Uint8Array` bytes (`0 ≤ b < 256`), for which
`byte & 0x7f` is `b % 128` and `(byte & 0x80) === 0` is `b < 128`.
`result |= (byte & 0x7f) << shift` uses int32 semantics (`jsOr`/`jsShl`). -/
def decodeUlebGo : List Nat → Int → Nat → Nat → Int × Nat
  | [], result, _, bytesRead => (result, bytesRead)
  | b :: rest, result, shift, bytesRead =>
    let result2 := jsOr result (jsShl (Int.ofNat (b % 128)) shift)
    if b < 128 then (result2, bytesRead + 1)
    else decodeUlebGo rest result2 (shift + 7) (bytesRead + 1)

/-- `decodeUleb128(bytes, offset)`: reads `bytes[offset + bytesRead]` while
`offset + bytesRead < bytes.length`, returning `{ value, bytesRead }`. -/
def decodeUleb128 (bytes : List Nat) (offset : Nat) : Int × Nat :=
  decodeUlebGo (bytes.drop offset) 0 0 0

/-- Reference ULEB128 encoding on `Nat` (no 32-bit wrapping); the faithful
`encodeUleb128` agrees with it exactly on `[0, 2^31)`. -/
def encodeNatUleb (k : Nat) : List Nat :=
  if h : k < 128 then [k]
  else (k % 128 + 128) :: encodeNatUleb (k / 128)
termination_by k
decreasing_by exact Nat.div_lt_self (by omega) (by omega)

/-! ## accountUtils.ts: hex strings, and bcsUtils.ts `encodeAddress` -/

/-- Value of a hexadecimal digit, `none` for every other character. -/
def hexVal (c : Char) : Option Nat :=
  if '0' ≤ c ∧ c ≤ '9' then some (c.toNat - '0'.toNat)
  else if 'a' ≤ c ∧ c ≤ 'f' then some (c.toNat - 'a'.toNat + 10)
  else if 'A' ≤ c ∧ c ≤ 'F' then some (c.toNat - 'A'.toNat + 10)
  else none

/-- Whether a character is a hexadecimal digit. -/
def isHexDigit (c : Char) : Bool :=
  (hexVal c).isSome

/-- `parseInt(s, 16)` on a two-character slice: parses the longest valid
leading run of hex digits, `none` (`NaN`) when the first character is not
a hex digit.  (The general `parseInt` also skips whitespace and signs and
strips a `0x` prefix; on the two-character slices taken here those cases
coincide with this model: a slice `"0?"` yields `0` either way.) -/
def parseIntHex2 (c1 c2 : Char) : Option Nat :=
  match hexVal c1 with
  | none => none
  | some d1 =>
    match hexVal c2 with
    | none => some d1
    | some d2 => some (16 * d1 + d2)

/-- Loop of `hexToBytes`: `bytes[i/2] = parseInt(cleanHex.slice(i, i+2), 16)`
two characters at a time; a `NaN` stored into a `Uint8Array` becomes `0`. -/
def hexPairs : List Char → List Nat
  | c1 :: c2 :: rest => (parseIntHex2 c1 c2).getD 0 :: hexPairs rest
  | _ => []

/-- Whether a character list starts with `0x` (JavaScript
`s.startsWith('0x')`). -/
def starts0x : List Char → Bool
  | c1 :: c2 :: _ => c1 = '0' && c2 = 'x'
  | _ => false

/-- Strip an optional leading `0x`
(the `startsWith('0x') ? slice(2) : ...` idiom). -/
def drop0x (hex : List Char) : List Char :=
  if starts0x hex then hex.drop 2 else hex

/-- `hexToBytes(hex)`: strips an optional `0x`, then allocates
`new Uint8Array(cleanHex.length / 2)` — which throws a `RangeError` when the
length is odd (`ToIndex` rejects the fractional length), modelled as `none`
— and fills it two characters at a time. -/
def hexToBytes (hex : List Char) : Option (List Nat) :=
  let cleanHex := drop0x hex
  if cleanHex.length % 2 = 1 then none
  else some (hexPairs cleanHex)

/-- `encodeAddress(address)`: strips an optional `0x`, left-pads with `'0'`
to 64 characters (`padStart(64, '0')`, a no-op on longer input), and calls
`hexToBytes`. -/
def encodeAddress (address : List Char) : Option (List Nat) :=
  let cleanAddress := drop0x address
  let paddedAddress := List.replicate (64 - cleanAddress.length) '0' ++ cleanAddress
  hexToBytes paddedAddress

/-! ## unitConverter.ts -/

/-- Floor base-2 logarithm by structural recursion on fuel (so that it
reduces inside the kernel; `Nat.log2` is defined by well-founded recursion
and does not).  Agrees with `Nat.log2` whenever `n < 2 ^ fuel`. -/
def log2F : Nat → Nat → Nat
  | 0, _ => 0
  | fuel + 1, n => if n ≤ 1 then 0 else log2F fuel (n / 2) + 1

/-- Round a natural number to the nearest IEEE-754 binary64 value
(53 significant bits, ties to even); numbers below `2^53` are exact.
Fuel 4096 covers every number below `2^4096`; for larger inputs the
computed unit in the last place is too small, which still classifies
them correctly as above the `2^1024` overflow threshold. -/
def roundToDouble (n : Nat) : Nat :=
  if n < 2 ^ 53 then n
  else
    let ulp := 2 ^ (log2F 4096 n - 52)
    let q := n / ulp
    let r := n % ulp
    if 2 * r < ulp then q * ulp
    else if ulp < 2 * r then (q + 1) * ulp
    else if q % 2 = 0 then q * ulp else (q + 1) * ulp

/-- JavaScript `10 ** d` for a natural `d`, converted by `BigInt(...)`:
the double result is the rounding of `10^d` (exact for `d ≤ 22`, since
`5^22 < 2^53`); from `d ≥ 309` on the power overflows to `Infinity` and
`BigInt(Infinity)` throws a `RangeError`, modelled as `none`. -/
def jsTenPow (d : Nat) : Option Nat :=
  let r := roundToDouble (10 ^ d)
  if r < 2 ^ 1024 then some r else none

/-- `convertUnits(amount, fromDecimals, toDecimals)`: computes
`decimalDiff = toDecimals - fromDecimals` and multiplies by
`BigInt(10 ** decimalDiff)` when positive, divides (`bigint` division,
truncating toward zero) by `BigInt(10 ** Math.abs(decimalDiff))` when
negative, returns the amount unchanged otherwise. -/
def convertUnits (amount : Int) (fromDecimals toDecimals : Int) : Option Int :=
  let decimalDiff := toDecimals - fromDecimals
  if 0 < decimalDiff then
    (jsTenPow decimalDiff.toNat).map fun p => amount * (p : Int)
  else if decimalDiff < 0 then
    (jsTenPow decimalDiff.natAbs).map fun p => amount.tdiv (p : Int)
  else
    some amount

/-! ## unitConverter.ts: amounts in their three representations -/

/-- A JavaScript number: `NaN`, an infinity, or a finite value.  Finite
binary64 values are rationals; the operations used on them here (sign
tests, comparisons and integrality tests) agree with the rational ones. -/
inductive JsNum
  | nan
  | posInf
  | negInf
  | fin (q : ℚ)
deriving DecidableEq

/-- An amount as accepted by `unitConverter.ts`:
`bigint | number | string`.  For a string argument the functions below only
inspect its numeric parse, so the model carries, next to the parsed view,
nothing else. -/
inductive AmountInput
  | big (i : Int)
  | num (x : JsNum)
  | str (s : List Char)
deriving DecidableEq

/-- Decimal digits of a character list, parsed greedily. -/
def takeDigits : List Char → Nat × List Char
  | c :: rest =>
    if '0' ≤ c ∧ c ≤ '9' then
      let (n, tl) := takeDigits rest
      (n + 1, c :: tl)
    else (0, [])
  | [] => (0, [])

/-- Numeric value of a list of decimal digits. -/
def digitsToNat : List Char → Nat
  | [] => 0
  | ds => ds.foldl (fun acc c => 10 * acc + (c.toNat - '0'.toNat)) 0

/-- `parseFloat(s)` restricted to the decimal fragment
`[+-] digits [. digits]` of its grammar (no exponent, no `Infinity`
literal, no leading whitespace — none of which any claim exercises):
the longest valid numeric head is parsed, `NaN` when there is none. -/
def parseFloatM (s : List Char) : JsNum :=
  let (sgn, body) :=
    match s with
    | '-' :: rest => ((-1 : ℚ), rest)
    | '+' :: rest => ((1 : ℚ), rest)
    | _ => ((1 : ℚ), s)
  let (n1, d1) := takeDigits body
  let after := body.drop n1
  let (n2, d2) :=
    match after with
    | '.' :: rest => takeDigits rest
    | _ => (0, [])
  if n1 = 0 ∧ n2 = 0 then .nan
  else .fin (sgn * ((digitsToNat d1 : ℚ) + (digitsToNat d2 : ℚ) / 10 ^ n2))

/-- `BigInt(s)` for a string: trimmed decimal integer grammar
`[+-] digits`, the empty string giving `0`; anything else throws a
`SyntaxError` (`none`).  (The binary/octal/hex prefixes of the full
grammar are not exercised by any claim.) -/
def jsBigIntOfChars (s : List Char) : Option Int :=
  let (sgn, body) :=
    match s with
    | '-' :: rest => ((-1 : Int), rest)
    | '+' :: rest => ((1 : Int), rest)
    | _ => ((1 : Int), s)
  if body.all fun c => '0' ≤ c ∧ c ≤ '9' then
    if (s.isEmpty : Bool) then some 0
    else if body.isEmpty then none
    else some (sgn * digitsToNat body)
  else none

/-- `BigInt(x)` as used by `unitConverter.ts` on an amount:
identity on `bigint`; on a number it requires an integral finite value
(otherwise `RangeError`); on a string it follows the `StringToBigInt`
grammar (otherwise `SyntaxError`).  Both failure modes are `none`. -/
def toBigInt : AmountInput → Option Int
  | .big i => some i
  | .num (.fin q) => if q.den = 1 then some q.num else none
  | .num _ => none
  | .str s => jsBigIntOfChars s

/-- `isValidAmount(amount)`: `amount >= 0n` for a `bigint`; otherwise
`parseFloat` a string argument and test `!isNaN(num) && num >= 0`.
(Nothing in the body can throw, so the `try/catch` wrapper never fires.) -/
def isValidAmount (amount : AmountInput) : Bool :=
  match amount with
  | .big i => decide (0 ≤ i)
  | .num x =>
    match x with
    | .nan => false
    | .posInf => true
    | .negInf => false
    | .fin q => decide (0 ≤ q)
  | .str s =>
    match parseFloatM s with
    | .nan => false
    | .posInf => true
    | .negInf => false
    | .fin q => decide (0 ≤ q)

/-- `compareAmounts(a, b)`: converts both arguments with `BigInt` (which
can throw, modelled as `none`) and returns `-1`, `1` or `0`. -/
def compareAmounts (a b : AmountInput) : Option Int :=
  match toBigInt a, toBigInt b with
  | some x, some y => some (if x < y then -1 else if y < x then 1 else 0)
  | _, _ => none

/-! ## moveUtils.ts and bcsUtils.ts: Move argument conversion/encoding -/

/-- A JavaScript value as handled by `encodeMoveArg`/`convertToMoveArg`:
booleans, numbers, strings, arrays and `bigint`s (the only shapes these
functions distinguish). -/
inductive JsValue
  | bool (b : Bool)
  | num (x : JsNum)
  | str (s : List Char)
  | arr (vs : List JsValue)
  | big (i : Int)

/-- The errors the modelled functions can raise.  `unsupported` stands for
the `Unsupported BCS type` / `Invalid function ID format` style `Error`s;
`diverge` marks a call into the non-terminating `encodeUleb128` loop (or
exhausted recursion fuel, which no claim reaches). -/
inductive JsErr
  | typeError
  | rangeError
  | syntaxError
  | unsupported
  | diverge
deriving DecidableEq

/-- JavaScript truthiness of a value. -/
def jsTruthy : JsValue → Bool
  | .bool b => b
  | .num .nan => false
  | .num (.fin q) => decide (q ≠ 0)
  | .num _ => true
  | .str s => !s.isEmpty
  | .arr _ => true
  | .big i => decide (i ≠ 0)

/-- ECMAScript `ToNumber` on a string (`Number(s)` semantics), restricted
to the optionally signed decimal fragment `[+-] digits [. digits]` of its
grammar; the whole string must match, the empty string gives `0`.
(Whitespace trimming, exponents and radix prefixes are not exercised by
any claim.) -/
def jsNumberOfChars (s : List Char) : JsNum :=
  if s.isEmpty then .fin 0
  else
    let (sgn, body) :=
      match s with
      | '-' :: rest => ((-1 : ℚ), rest)
      | '+' :: rest => ((1 : ℚ), rest)
      | _ => ((1 : ℚ), s)
    let (n1, d1) := takeDigits body
    let after := body.drop n1
    match after with
    | [] => if n1 = 0 then .nan else .fin (sgn * (digitsToNat d1 : ℚ))
    | '.' :: rest =>
      let (n2, d2) := takeDigits rest
      if rest.drop n2 = [] ∧ ¬(n1 = 0 ∧ n2 = 0) then
        .fin (sgn * ((digitsToNat d1 : ℚ) + (digitsToNat d2 : ℚ) / 10 ^ n2))
      else .nan
    | _ => .nan

/-- `Number(value)` / `ToNumber`.  On arrays the `ToPrimitive` chain
(join to a string, then parse) is approximated by `NaN`; no claim
evaluates it.  `Number` of a `bigint` is exact within double range,
approximated as exact. -/
def jsNumberOf : JsValue → JsNum
  | .bool b => .fin (if b then 1 else 0)
  | .num x => x
  | .str s => jsNumberOfChars s
  | .big i => .fin (i : ℚ)
  | .arr _ => .nan

/-- Truncation toward zero of a rational (ECMAScript `ToIntegerOrInfinity`
on a finite value). -/
def ratTrunc (q : ℚ) : Int :=
  if 0 ≤ q then ⌊q⌋ else ⌈q⌉

/-- ECMAScript `ToInt32` on a number: `NaN` and the infinities give `0`,
finite values are truncated and wrapped into int32 range. -/
def jsNumToInt32 : JsNum → Int
  | .nan => 0
  | .posInf => 0
  | .negInf => 0
  | .fin q => jsToInt32 (ratTrunc q)

/-- The coercion a bitwise operator applies to a value: `ToNumber` then
`ToInt32`; a `bigint` operand mixed with a number mask throws a
`TypeError`. -/
def jsCoerceInt32 : JsValue → Except JsErr Int
  | .big _ => .error .typeError
  | v => .ok (jsNumToInt32 (jsNumberOf v))

/-- `BigInt(value)`: identity on `bigint`s, integrality-checked on numbers
(`RangeError` otherwise), `StringToBigInt` grammar on strings
(`SyntaxError` otherwise), `0`/`1` on booleans.  Arrays again go through
`ToPrimitive`, approximated by a `SyntaxError`; no claim evaluates it. -/
def jsToBigIntE : JsValue → Except JsErr Int
  | .big i => .ok i
  | .num (.fin q) => if q.den = 1 then .ok q.num else .error .rangeError
  | .num _ => .error .rangeError
  | .bool b => .ok (if b then 1 else 0)
  | .str s =>
    match jsBigIntOfChars s with
    | some i => .ok i
    | none => .error .syntaxError
  | .arr _ => .error .syntaxError

/-- `String(value)`.  Number formatting (shortest round-trip form) is
approximated: integral values print exactly, anything else is left as a
marker string; no claim evaluates those cases. -/
def jsToStringV : JsValue → List Char
  | .str s => s
  | .bool b => if b then "true".toList else "false".toList
  | .big i => (toString i).toList
  | .num (.fin q) => if q.den = 1 then (toString q.num).toList else "?".toList
  | .num .nan => "NaN".toList
  | .num .posInf => "Infinity".toList
  | .num .negInf => "-Infinity".toList
  | .arr _ => "?".toList

/-- Lowercasing of a character list (`s.toLowerCase()`). -/
def toLowerChars (s : List Char) : List Char :=
  s.map Char.toLower

/-- UTF-8 bytes of a string (`new TextEncoder().encode(s)`). -/
def utf8Bytes (s : List Char) : List Nat :=
  (s.map fun c => (String.utf8EncodeChar c).map (fun b => b.toNat)).flatten

/-- `encodeString(value)`: ULEB128 length prefix followed by the UTF-8
bytes (`none` when the length-prefix loop diverges, which needs a string
of at least `2^31` bytes). -/
def encodeString (value : List Char) : Option (List Nat) :=
  let stringBytes := utf8Bytes value
  (encodeUleb128 (Int.ofNat stringBytes.length)).map
    fun lenBytes => lenBytes ++ stringBytes

/-- `encodeVector(items)`: ULEB128 length prefix followed by the
concatenated item encodings. -/
def encodeVector (items : List (List Nat)) : Option (List Nat) :=
  (encodeUleb128 (Int.ofNat items.length)).map
    fun lenBytes => lenBytes ++ items.flatten

/-- `concatBytes(...arrays)`. -/
def concatBytes (arrays : List (List Nat)) : List Nat :=
  arrays.flatten

/-- JavaScript `s.trim()` (its whitespace set approximated by
`Char.isWhitespace`). -/
def trimChars (s : List Char) : List Char :=
  ((s.dropWhile Char.isWhitespace).reverse.dropWhile Char.isWhitespace).reverse

/-- Loop of `parseMoveTypeString`: walk the generic part tracking bracket
depth (a JavaScript number, so an `Int` — unbalanced `>` drives it
negative), splitting on top-level commas; each comma pushes the trimmed
current chunk unconditionally, the trailing chunk only when non-empty. -/
def splitTypeArgs : List Char → Int → List Char → List (List Char) → List (List Char)
  | [], _, current, acc =>
    if trimChars current = [] then acc else acc ++ [trimChars current]
  | c :: rest, depth, current, acc =>
    if c = '<' then splitTypeArgs rest (depth + 1) (current ++ [c]) acc
    else if c = '>' then splitTypeArgs rest (depth - 1) (current ++ [c]) acc
    else if c = ',' ∧ depth = 0 then splitTypeArgs rest depth [] (acc ++ [trimChars current])
    else splitTypeArgs rest depth (current ++ [c]) acc

/-- `parseMoveTypeString(typeStr)`: base type before the first `<`, and the
top-level comma-separated pieces of `typeStr.slice(genericStart + 1, -1)`. -/
def parseMoveTypeString (typeStr : List Char) : List Char × List (List Char) :=
  match typeStr.findIdx? (fun c => c = '<') with
  | none => (typeStr, [])
  | some genericStart =>
    let baseType := typeStr.take genericStart
    let genericPart := (typeStr.drop (genericStart + 1)).dropLast
    (baseType, splitTypeArgs genericPart 0 [] [])

/-- `isPrimitiveType(type)`: membership of the lowercased type in the
primitive list. -/
def isPrimitiveType (type : List Char) : Bool :=
  (["bool", "u8", "u16", "u32", "u64", "u128", "u256", "address", "signer"].map
    String.toList).contains (toLowerChars type)

/-- `isVectorType(type)`: the lowercased type starts with `vector<`. -/
def isVectorType (type : List Char) : Bool :=
  List.isPrefixOf ("vector<".toList) (toLowerChars type)

/-- `getVectorInnerType(vectorType)`: first parsed type argument, or the
empty string (`typeArgs[0] || ''`). -/
def getVectorInnerType (vectorType : List Char) : List Char :=
  match (parseMoveTypeString vectorType).2 with
  | [] => []
  | a :: _ => a

/-- `Buffer.from(hex, 'hex')`: bytes of the leading well-formed pairs of
hex digits; parsing stops at the first invalid pair or lone trailing
character. -/
def bufferFromHex : List Char → List Nat
  | c1 :: c2 :: rest =>
    match hexVal c1, hexVal c2 with
    | some d1, some d2 => (16 * d1 + d2) :: bufferFromHex rest
    | _, _ => []
  | _ => []

mutual

/-- Node count of a value, an upper bound for its nesting depth; used as
recursion fuel by the wrappers below. -/
def jsSize : JsValue → Nat
  | .arr vs => jsSizeList vs + 1
  | _ => 1

def jsSizeList : List JsValue → Nat
  | [] => 0
  | v :: vs => jsSize v + jsSizeList vs

end

/-- `convertToMoveArg(value, type)`, with fuel for the recursion through
array elements (structural on the fuel so that concrete calls reduce; the
wrapper below supplies more fuel than any value's depth). -/
def convertToMoveArgF : Nat → JsValue → List Char → Except JsErr JsValue
  | 0, _, _ => .error .diverge
  | fuel + 1, value, type =>
    if isPrimitiveType type then
      let t := toLowerChars type
      if t = "bool".toList then .ok (.bool (jsTruthy value))
      else if t = "u8".toList ∨ t = "u16".toList ∨ t = "u32".toList then
        .ok (.num (jsNumberOf value))
      else if t = "u64".toList ∨ t = "u128".toList ∨ t = "u256".toList then
        (jsToBigIntE value).map .big
      else if t = "address".toList then .ok (.str (jsToStringV value))
      else .ok value
    else if isVectorType type then
      let innerType := getVectorInnerType type
      match value with
      | .arr vs => (vs.mapM fun v => convertToMoveArgF fuel v innerType).map .arr
      | .str s =>
        if innerType = "u8".toList then
          let hex := if starts0x s then s.drop 2 else s
          .ok (.arr ((bufferFromHex hex).map fun b : Nat => JsValue.num (.fin (b : ℚ))))
        else .ok value
      | _ => .ok value
    else .ok value

/-- `convertToMoveArg(value, type)`. -/
def convertToMoveArg (value : JsValue) (type : List Char) : Except JsErr JsValue :=
  convertToMoveArgF (jsSize value) value type

/-- `encodeMoveArg(type, value)`, with fuel for the recursion through
vector elements, as for `convertToMoveArgF`.  The `switch` compares the
lowercased type (so its `'0x1::string::String'` case is unreachable), but
the default branch tests `type.startsWith('vector<')` on the original
spelling and slices the inner type with `type.slice(7, -1)`. -/
def encodeMoveArgF : Nat → List Char → JsValue → Except JsErr (List Nat)
  | 0, _, _ => .error .diverge
  | fuel + 1, type, value =>
    let t := toLowerChars type
    if t = "bool".toList then .ok (encodeBool (jsTruthy value))
    else if t = "u8".toList then (jsCoerceInt32 value).map encodeU8
    else if t = "u16".toList then (jsCoerceInt32 value).map encodeU16
    else if t = "u32".toList then (jsCoerceInt32 value).map encodeU32
    else if t = "u64".toList then (jsToBigIntE value).map encodeU64
    else if t = "u128".toList then (jsToBigIntE value).map encodeU128
    else if t = "u256".toList then (jsToBigIntE value).map encodeU256
    else if t = "address".toList then
      match value with
      | .str s =>
        match encodeAddress s with
        | some bs => .ok bs
        | none => .error .rangeError
      | _ => .error .typeError
    else if t = "string".toList ∨ t = "0x1::string::String".toList then
      match encodeString (jsToStringV value) with
      | some bs => .ok bs
      | none => .error .diverge
    else if List.isPrefixOf ("vector<".toList) type then
      match value with
      | .arr vs => do
        let items ← vs.mapM fun v => encodeMoveArgF fuel ((type.drop 7).dropLast) v
        match encodeVector items with
        | some r => .ok r
        | none => .error .diverge
      | _ => .error .typeError
    else .error .unsupported

/-- `encodeMoveArg(type, value)`. -/
def encodeMoveArg (type : List Char) (value : JsValue) : Except JsErr (List Nat) :=
  encodeMoveArgF (jsSize value) type value

/-! ## General arithmetic lemmas -/

/-- Oring a value below `2^s` with a multiple of `2^s` is addition (the two
operands occupy disjoint bit ranges). -/
theorem lor_eq_add_of_lt (r b s : Nat) (h : r < 2 ^ s) :
    r ||| b * 2 ^ s = r + b * 2 ^ s := by
  apply Nat.eq_of_testBit_eq
  intro j
  have hcomm : r + b * 2 ^ s = 2 ^ s * b + r := by ring
  rw [hcomm, Nat.testBit_mul_pow_two_add _ h, Nat.testBit_lor, ← Nat.shiftLeft_eq,
    Nat.testBit_shiftLeft]
  by_cases hj : j < s
  · simp [hj, Nat.not_le.mpr hj]
  · have hr : r.testBit j = false :=
      Nat.testBit_lt_two_pow
        (lt_of_lt_of_le h (Nat.pow_le_pow_right (by norm_num) (Nat.le_of_not_lt hj)))
    simp [hj, Nat.le_of_not_lt hj, hr]

/-- Euclidean remainder by a product, decomposed into low and high parts. -/
theorem emod_mul_decomp (a b c : Int) (hb : 0 < b) (hc : 0 < c) :
    a % (b * c) = a % b + b * ((a / b) % c) := by
  have h1 : 0 ≤ a % b := Int.emod_nonneg a (by omega)
  have h2 : a % b < b := Int.emod_lt_of_pos a hb
  have h3 : 0 ≤ (a / b) % c := Int.emod_nonneg _ (by omega)
  have h4 : (a / b) % c < c := Int.emod_lt_of_pos _ hc
  have key : a = (a % b + b * (a / b % c)) + (b * c) * (a / b / c) := by
    have e1 := Int.ediv_add_emod a b
    have e2 := Int.ediv_add_emod (a / b) c
    linear_combination (-1 : Int) * e1 - b * e2
  have hrlt : a % b + b * (a / b % c) < b * c := by
    have h5 : b * (a / b % c) ≤ b * (c - 1) :=
      mul_le_mul_of_nonneg_left (by omega) (by omega)
    have h6 : b * (c - 1) = b * c - b := by ring
    linarith
  calc a % (b * c) = (a % b + b * (a / b % c) + (b * c) * (a / b / c)) % (b * c) := by
        rw [← key]
    _ = (a % b + b * (a / b % c)) % (b * c) :=
        Int.add_mul_emod_self_left (a % b + b * (a / b % c)) (b * c) (a / b / c)
    _ = a % b + b * (a / b % c) :=
        Int.emod_eq_of_lt (add_nonneg h1 (mul_nonneg hb.le h3)) hrlt

/-- Successive euclidean divisions compose into division by the product. -/
theorem ediv_ediv_decomp (a b c : Int) (hb : 0 < b) (hc : 0 < c) :
    a / b / c = a / (b * c) := by
  have h1 : 0 ≤ a % b := Int.emod_nonneg a (by omega)
  have h2 : a % b < b := Int.emod_lt_of_pos a hb
  have h3 : 0 ≤ (a / b) % c := Int.emod_nonneg _ (by omega)
  have h4 : (a / b) % c < c := Int.emod_lt_of_pos _ hc
  have key : a = (a % b + b * (a / b % c)) + (b * c) * (a / b / c) := by
    have e1 := Int.ediv_add_emod a b
    have e2 := Int.ediv_add_emod (a / b) c
    linear_combination (-1 : Int) * e1 - b * e2
  have hmod := emod_mul_decomp a b c hb hc
  have hsum := Int.ediv_add_emod a (b * c)
  have hbc : (0 : Int) < b * c := mul_pos hb hc
  have hm : (b * c) * (a / (b * c)) = (b * c) * (a / b / c) := by linarith
  exact (mul_left_cancel₀ hbc.ne' hm).symm

/-- `jsToInt32` is the identity on int32 range. -/
theorem jsToInt32_eq_self {n : Int} (h0 : -2147483648 ≤ n) (h1 : n < 2147483648) :
    jsToInt32 n = n := by
  unfold jsToInt32
  have h31 : (2 : Int) ^ 31 = 2147483648 := by norm_num
  have h32 : (2 : Int) ^ 32 = 4294967296 := by norm_num
  omega

/-- `jsToInt32` lands in int32 range. -/
theorem jsToInt32_bounds (n : Int) :
    -2147483648 ≤ jsToInt32 n ∧ jsToInt32 n < 2147483648 := by
  unfold jsToInt32
  have h31 : (2 : Int) ^ 31 = 2147483648 := by norm_num
  have h32 : (2 : Int) ^ 32 = 4294967296 := by norm_num
  omega

/-- `jsToInt32` preserves the residue modulo `2^32`. -/
theorem jsToInt32_emod (n : Int) : jsToInt32 n % 4294967296 = n % 4294967296 := by
  unfold jsToInt32
  have h31 : (2 : Int) ^ 31 = 2147483648 := by norm_num
  have h32 : (2 : Int) ^ 32 = 4294967296 := by norm_num
  omega

/-- `jsShr` below shift 32 is euclidean division of the int32 image. -/
theorem jsShr_eq (n : Int) (s : Nat) (hs : s < 32) :
    jsShr n s = jsToInt32 n / 2 ^ s := by
  unfold jsShr
  rw [Nat.mod_eq_of_lt hs, Int.fdiv_eq_ediv _ (by positivity)]

/-- Casting `jsAnd255` back to `Int` gives the low byte of the int32
image. -/
theorem jsAnd255_cast (x : Int) : (jsAnd255 x : Int) = jsToInt32 x % 256 := by
  unfold jsAnd255
  exact Int.toNat_of_nonneg (Int.emod_nonneg _ (by norm_num))

/-! ## Byte-list lemmas -/

/-- Little-endian byte list of a natural number at a given width. -/
def natLEBytes : Nat → Nat → List Nat
  | 0, _ => []
  | w + 1, m => m % 256 :: natLEBytes w (m / 256)

/-- Successive `fdiv`s by byte powers compose. -/
theorem fdiv_fdiv_pow (n : Int) (i : Nat) :
    (n.fdiv 256).fdiv (2 ^ (8 * i)) = n.fdiv (2 ^ (8 * (i + 1))) := by
  have h2 : (0 : Int) < 2 ^ (8 * i) := by positivity
  have h3 : (0 : Int) < 2 ^ (8 * (i + 1)) := by positivity
  rw [Int.fdiv_eq_ediv n (by norm_num), Int.fdiv_eq_ediv (n / 256) h2.le,
    Int.fdiv_eq_ediv n h3.le, ediv_ediv_decomp n 256 _ (by norm_num) h2]
  congr 1
  rw [show 8 * (i + 1) = 8 + 8 * i by ring, pow_add]
  norm_num

/-- `bigIntLEBytes` unfolds one byte at a time. -/
theorem bigIntLEBytes_succ (w : Nat) (n : Int) :
    bigIntLEBytes (w + 1) n = (n % 256).toNat :: bigIntLEBytes w (n.fdiv 256) := by
  unfold bigIntLEBytes
  rw [List.range_succ_eq_map, List.map_cons, List.map_map]
  congr 1
  · norm_num
  · apply List.map_congr_left
    intro i _
    simp only [Function.comp_apply]
    rw [fdiv_fdiv_pow]

/-- `bigIntLEBytes` has the requested width. -/
theorem bigIntLEBytes_length (w : Nat) (n : Int) :
    (bigIntLEBytes w n).length = w := by
  simp [bigIntLEBytes]

/-- Every entry of `bigIntLEBytes` is a byte. -/
theorem bigIntLEBytes_lt (w : Nat) (n : Int) :
    ∀ b ∈ bigIntLEBytes w n, b < 256 := by
  intro b hb
  simp only [bigIntLEBytes, List.mem_map, List.mem_range] at hb
  obtain ⟨i, _, rfl⟩ := hb
  have h1 := Int.emod_lt_of_pos (n.fdiv (2 ^ (8 * i))) (show (0 : Int) < 256 by norm_num)
  have h0 := Int.emod_nonneg (n.fdiv (2 ^ (8 * i))) (show (256 : Int) ≠ 0 by norm_num)
  omega

/-- The little-endian value of `bigIntLEBytes w n` is `n mod 2^(8w)`. -/
theorem natFromLE_bigIntLEBytes (w : Nat) : ∀ n : Int,
    (natFromLE (bigIntLEBytes w n) : Int) = n % 2 ^ (8 * w) := by
  induction w with
  | zero =>
    intro n
    simp [bigIntLEBytes, natFromLE]
  | succ w ih =>
    intro n
    rw [bigIntLEBytes_succ]
    show ((((n % 256).toNat : Nat) + 256 * natFromLE (bigIntLEBytes w (n.fdiv 256)) : Nat) : Int)
      = n % 2 ^ (8 * (w + 1))
    push_cast
    rw [ih (n.fdiv 256), Int.toNat_of_nonneg (Int.emod_nonneg _ (by norm_num)),
      Int.fdiv_eq_ediv n (by norm_num)]
    rw [show (2 : Int) ^ (8 * (w + 1)) = 256 * 2 ^ (8 * w) by
      rw [show 8 * (w + 1) = 8 + 8 * w by ring, pow_add]; norm_num]
    rw [emod_mul_decomp n 256 (2 ^ (8 * w)) (by norm_num) (by positivity)]

/-- The decode loop adds the little-endian value of the remaining bytes at
the current bit position, provided the accumulator stays below it. -/
theorem decodeLEAcc_eq (bytes : List Nat) : ∀ (i acc : Nat),
    (∀ b ∈ bytes, b < 256) → acc < 2 ^ (8 * i) →
    decodeLEAcc bytes i acc = acc + natFromLE bytes * 2 ^ (8 * i) := by
  induction bytes with
  | nil =>
    intro i acc _ _
    simp [decodeLEAcc, natFromLE]
  | cons b rest ih =>
    intro i acc hb hacc
    simp only [decodeLEAcc]
    rw [Nat.shiftLeft_eq, lor_eq_add_of_lt _ _ _ hacc]
    have hb0 : b < 256 := hb b (List.mem_cons_self b rest)
    have hpow : 2 ^ (8 * (i + 1)) = 2 ^ (8 * i) * 256 := by
      rw [show 8 * (i + 1) = 8 * i + 8 by ring, pow_add]
      norm_num
    have hacc' : acc + b * 2 ^ (8 * i) < 2 ^ (8 * (i + 1)) := by
      calc acc + b * 2 ^ (8 * i) < 2 ^ (8 * i) + b * 2 ^ (8 * i) :=
            Nat.add_lt_add_right hacc _
        _ = (1 + b) * 2 ^ (8 * i) := by ring
        _ ≤ 256 * 2 ^ (8 * i) := Nat.mul_le_mul_right _ (by omega)
        _ = 2 ^ (8 * (i + 1)) := by rw [hpow]; ring
    rw [ih (i + 1) _ (fun x hx => hb x (List.mem_cons_of_mem _ hx)) hacc']
    simp only [natFromLE]
    rw [hpow]
    ring

/-- C1 counterexample: out-of-range and negative inputs do not raise a
`RangeError`; the encoders return (wrapped) bytes.  `encodeU8(256)` is the
single byte `0`, `encodeU64(2^64)` is eight zero bytes, and
`encodeU64(-1)` is eight `0xff` bytes. -/
theorem c1_no_range_error_counterexample :
    encodeU8 256 = [0] ∧ encodeU64 (2 ^ 64) = List.replicate 8 0 ∧
      encodeU64 (-1) = List.replicate 8 255 := by
  refine ⟨by decide, by decide, by decide⟩

/-- C1 (amended): none of the six encoders performs a range check; for
every integer `n` — including `n < 0` and `n ≥ 2^w` — each returns its
full fixed-width byte list, whose little-endian value is `n mod 2^w`
(the two's-complement wrap of the input). -/
theorem c1_encoders_wrap_amended (n : Int) :
    ((encodeU8 n).length = 1 ∧ (natFromLE (encodeU8 n) : Int) = n % 2 ^ 8) ∧
    ((encodeU16 n).length = 2 ∧ (natFromLE (encodeU16 n) : Int) = n % 2 ^ 16) ∧
    ((encodeU32 n).length = 4 ∧ (natFromLE (encodeU32 n) : Int) = n % 2 ^ 32) ∧
    ((encodeU64 n).length = 8 ∧ (natFromLE (encodeU64 n) : Int) = n % 2 ^ 64) ∧
    ((encodeU128 n).length = 16 ∧ (natFromLE (encodeU128 n) : Int) = n % 2 ^ 128) ∧
    ((encodeU256 n).length = 32 ∧ (natFromLE (encodeU256 n) : Int) = n % 2 ^ 256) := by
  have hm := jsToInt32_emod n
  have hb := jsToInt32_bounds n
  refine ⟨⟨rfl, ?_⟩, ⟨rfl, ?_⟩, ⟨rfl, ?_⟩,
    ⟨bigIntLEBytes_length 8 n, ?_⟩, ⟨bigIntLEBytes_length 16 n, ?_⟩,
    ⟨bigIntLEBytes_length 32 n, ?_⟩⟩
  · show ((jsAnd255 n + 256 * natFromLE [] : Nat) : Int) = n % 2 ^ 8
    simp only [natFromLE]
    push_cast
    rw [jsAnd255_cast]
    norm_num
    omega
  · show ((jsAnd255 n + 256 * (jsAnd255 (jsShr n 8) + 256 * natFromLE []) : Nat) : Int)
      = n % 2 ^ 16
    simp only [natFromLE]
    push_cast
    rw [jsAnd255_cast, jsAnd255_cast, jsShr_eq n 8 (by norm_num),
      jsToInt32_eq_self (show -2147483648 ≤ jsToInt32 n / 2 ^ 8 by omega)
        (show jsToInt32 n / 2 ^ 8 < 2147483648 by omega)]
    norm_num
    omega
  · show ((jsAnd255 n + 256 * (jsAnd255 (jsShr n 8) + 256 * (jsAnd255 (jsShr n 16)
      + 256 * (jsAnd255 (jsShr n 24) + 256 * natFromLE []))) : Nat) : Int) = n % 2 ^ 32
    simp only [natFromLE]
    push_cast
    rw [jsAnd255_cast, jsAnd255_cast, jsAnd255_cast, jsAnd255_cast,
      jsShr_eq n 8 (by norm_num), jsShr_eq n 16 (by norm_num), jsShr_eq n 24 (by norm_num),
      jsToInt32_eq_self (show -2147483648 ≤ jsToInt32 n / 2 ^ 8 by omega)
        (show jsToInt32 n / 2 ^ 8 < 2147483648 by omega),
      jsToInt32_eq_self (show -2147483648 ≤ jsToInt32 n / 2 ^ 16 by omega)
        (show jsToInt32 n / 2 ^ 16 < 2147483648 by omega),
      jsToInt32_eq_self (show -2147483648 ≤ jsToInt32 n / 2 ^ 24 by omega)
        (show jsToInt32 n / 2 ^ 24 < 2147483648 by omega)]
    norm_num
    omega
  · exact natFromLE_bigIntLEBytes 8 n
  · exact natFromLE_bigIntLEBytes 16 n
  · exact natFromLE_bigIntLEBytes 32 n

/-- C2: for every `n` with `0 ≤ n < 2^64`, decoding the little-endian
8-byte encoding gives `n` back: `decodeU64(encodeU64(n)) = n`. -/
theorem c2_decodeU64_encodeU64 (n : Nat) (h : n < 2 ^ 64) :
    decodeU64 (encodeU64 (n : Int)) = n := by
  unfold decodeU64 encodeU64
  rw [List.take_all_of_le (by rw [bigIntLEBytes_length])]
  rw [decodeLEAcc_eq _ 0 0 (bigIntLEBytes_lt _ _) (by norm_num)]
  have hv := natFromLE_bigIntLEBytes 8 (n : Int)
  have h64 : ((n : Int)) % 2 ^ (8 * 8) = (n : Int) := by
    have hn : (n : Int) < 2 ^ 64 := by exact_mod_cast h
    have hpw : (2 : Int) ^ (8 * 8) = 2 ^ 64 := by norm_num
    rw [hpw]
    exact Int.emod_eq_of_lt (by omega) hn
  rw [h64] at hv
  have hnat : natFromLE (bigIntLEBytes 8 (n : Int)) = n := by exact_mod_cast hv
  simp only [Nat.mul_zero, pow_zero, mul_one, Nat.zero_add]
  exact hnat

set_option maxHeartbeats 2000000 in
/-- C2 witness at a concrete 64-bit value. -/
theorem c2_witness :
    decodeU64 (encodeU64 ((16045690984833335023 : Nat) : Int)) = 16045690984833335023 :=
  c2_decodeU64_encodeU64 16045690984833335023 (by norm_num)

/-- C6: `decodeU64` tolerates fewer than 8 bytes, returning the
little-endian value of the bytes present (missing high bytes are zero),
with no error. -/
theorem c6_decodeU64_short (bytes : List Nat) (hb : ∀ b ∈ bytes, b < 256)
    (hl : bytes.length < 8) :
    decodeU64 bytes = natFromLE bytes := by
  unfold decodeU64
  rw [List.take_all_of_le (le_of_lt hl)]
  rw [decodeLEAcc_eq bytes 0 0 hb (by norm_num)]
  simp

/-- C6 witness: two bytes decode to their 16-bit little-endian value. -/
theorem c6_witness : decodeU64 [1, 2] = natFromLE [1, 2] ∧ natFromLE [1, 2] = 513 :=
  ⟨c6_decodeU64_short [1, 2] (by decide) (by decide), by decide⟩

/-- C10: when the offset is at or past the end of the byte array,
`decodeUleb128` returns value `0` with `0` bytes read, and no error. -/
theorem c10_decodeUleb128_past_end (bytes : List Nat) (offset : Nat)
    (h : bytes.length ≤ offset) :
    decodeUleb128 bytes offset = (0, 0) := by
  unfold decodeUleb128
  rw [List.drop_eq_nil_of_le h]
  rfl

/-- C10 witness: decoding `[7]` at offset `1` and `[]` at offset `0`. -/
theorem c10_witness :
    decodeUleb128 [7] 1 = (0, 0) ∧ decodeUleb128 [] 0 = (0, 0) :=
  ⟨c10_decodeUleb128_past_end [7] 1 (by decide),
   c10_decodeUleb128_past_end [] 0 (by decide)⟩

/-! ## ULEB128 round-trip lemmas -/

/-- `jsToInt32` fixes natural numbers below `2^31`. -/
theorem jsToInt32_natCast {b : Nat} (h : b < 2147483648) :
    jsToInt32 (b : Int) = (b : Int) := by
  apply jsToInt32_eq_self
  · have h0 : (0 : Int) ≤ (b : Int) := Int.natCast_nonneg b
    omega
  · exact_mod_cast h

/-- `x & 0x7f` on a small natural is `x mod 128`. -/
theorem jsAnd127_natCast (k : Nat) (h : k < 2147483648) :
    jsAnd127 (k : Int) = k % 128 := by
  unfold jsAnd127
  rw [jsToInt32_natCast h]
  omega

/-- `x >> 7` on a small natural is division by 128. -/
theorem jsShr7_natCast (k : Nat) (h : k < 2147483648) :
    jsShr (k : Int) 7 = ((k / 128 : Nat) : Int) := by
  unfold jsShr
  norm_num
  rw [jsToInt32_natCast h, Int.fdiv_eq_ediv _ (by norm_num)]

/-- `x << s` on small naturals with an in-range product is multiplication. -/
theorem jsShl_small (b : Nat) (s : Nat) (hs : s < 32) (hb : b < 2147483648)
    (hbs : b * 2 ^ s < 2147483648) :
    jsShl (b : Int) s = ((b * 2 ^ s : Nat) : Int) := by
  unfold jsShl
  rw [Nat.mod_eq_of_lt hs, jsToInt32_natCast hb,
    show (b : Int) * 2 ^ s = ((b * 2 ^ s : Nat) : Int) by push_cast; ring]
  exact jsToInt32_natCast hbs

/-- `x | y` on naturals in disjoint bit ranges is addition. -/
theorem jsOr_disjoint (r b s : Nat) (hr : r < 2 ^ s) (hlt : r + b * 2 ^ s < 2147483648) :
    jsOr (r : Int) ((b * 2 ^ s : Nat) : Int) = ((r + b * 2 ^ s : Nat) : Int) := by
  unfold jsOr
  have hr32 : ((r : Int)) % 2 ^ 32 = (r : Int) := by
    apply Int.emod_eq_of_lt (Int.natCast_nonneg r)
    have : r < 4294967296 := by omega
    exact_mod_cast (show r < 2 ^ 32 by norm_num; omega)
  have hb32 : (((b * 2 ^ s : Nat) : Int)) % 2 ^ 32 = ((b * 2 ^ s : Nat) : Int) := by
    apply Int.emod_eq_of_lt (Int.natCast_nonneg _)
    exact_mod_cast (show b * 2 ^ s < 2 ^ 32 by norm_num; omega)
  rw [hr32, hb32, Int.toNat_natCast, Int.toNat_natCast,
    lor_eq_add_of_lt r b s hr]
  exact jsToInt32_natCast hlt

/-- One-step unfolding of the encode loop. -/
theorem encodeUleb128Go_succ (fuel : Nat) (value : Int) :
    encodeUleb128Go (fuel + 1) value =
      if jsShr value 7 = 0 then some [jsAnd127 value]
      else (encodeUleb128Go fuel (jsShr value 7)).map
        fun rest => (jsAnd127 value ||| 128) :: rest := rfl

/-- On `[0, 2^31)` the faithful 32-bit encoder agrees with the reference
`Nat` ULEB128 encoding, given enough fuel for the value's 7-bit digits. -/
theorem encodeUleb128Go_natUleb : ∀ fuel k : Nat, k < 2 ^ (7 * (fuel + 1)) → k < 2 ^ 31 →
    encodeUleb128Go (fuel + 1) (k : Int) = some (encodeNatUleb k) := by
  intro fuel
  induction fuel with
  | zero =>
    intro k h7 _
    have hk : k < 128 := by norm_num at h7; omega
    rw [encodeUleb128Go_succ, jsShr7_natCast k (by omega), jsAnd127_natCast k (by omega),
      Nat.div_eq_of_lt hk]
    simp [encodeNatUleb, hk, Nat.mod_eq_of_lt hk]
  | succ f ih =>
    intro k h7 h31
    have h31n : k < 2147483648 := by
      have hp : (2 : Nat) ^ 31 = 2147483648 := by norm_num
      omega
    rw [encodeUleb128Go_succ, jsShr7_natCast k h31n, jsAnd127_natCast k h31n]
    by_cases hk : k < 128
    · rw [Nat.div_eq_of_lt hk]
      simp [encodeNatUleb, hk, Nat.mod_eq_of_lt hk]
    · have hz : ¬(((k / 128 : Nat) : Int) = 0) := by
        have h1 : 1 ≤ k / 128 := (Nat.one_le_div_iff (by norm_num)).mpr (by omega)
        omega
      rw [if_neg hz]
      have hdiv7 : k / 128 < 2 ^ (7 * (f + 1)) := by
        have h2 : k < 2 ^ (7 * (f + 1)) * 128 := by
          have he : 7 * (f + 1 + 1) = 7 * (f + 1) + 7 := by ring
          rw [he, pow_add] at h7
          norm_num at h7
          exact h7
        omega
      have hdiv31 : k / 128 < 2 ^ 31 := lt_of_le_of_lt (Nat.div_le_self _ _) h31
      rw [ih (k / 128) hdiv7 hdiv31]
      have hstep : encodeNatUleb k = (k % 128 + 128) :: encodeNatUleb (k / 128) := by
        rw [encodeNatUleb]
        simp [hk]
      have hlor : k % 128 ||| 128 = k % 128 + 128 := by
        have hl := lor_eq_add_of_lt (k % 128) 1 7 (by omega)
        norm_num at hl
        exact hl
      rw [hstep]
      simp [hlor]

/-- One-step unfolding of the decode loop. -/
theorem decodeUlebGo_cons (b : Nat) (rest : List Nat) (result : Int) (shift bytesRead : Nat) :
    decodeUlebGo (b :: rest) result shift bytesRead =
      if b < 128 then (jsOr result (jsShl (Int.ofNat (b % 128)) shift), bytesRead + 1)
      else decodeUlebGo rest (jsOr result (jsShl (Int.ofNat (b % 128)) shift))
        (shift + 7) (bytesRead + 1) := rfl

/-- A partial ULEB128 sum stays below `2^31` when the pending digits do. -/
theorem uleb_sum_bound (r k s : Nat) (hr : r < 2 ^ s) (hk1 : 1 ≤ k)
    (hks : k * 2 ^ s < 2 ^ 31) : r + k * 2 ^ s < 2 ^ 31 := by
  have hpow : 2 ^ s ≤ k * 2 ^ s := Nat.le_mul_of_pos_left _ (by omega)
  have hs : s ≤ 31 := by
    have h2 : 2 ^ s < 2 ^ 31 := lt_of_le_of_lt hpow hks
    exact le_of_lt ((Nat.pow_lt_pow_iff_right (by norm_num)).mp h2)
  have hsplit : (2 : Nat) ^ 31 = 2 ^ (31 - s) * 2 ^ s := by
    rw [← pow_add]
    congr 1
    omega
  have hklt : k < 2 ^ (31 - s) := by
    rw [hsplit] at hks
    exact Nat.lt_of_mul_lt_mul_right hks
  have hmul : (k + 1) * 2 ^ s ≤ 2 ^ (31 - s) * 2 ^ s := Nat.mul_le_mul_right _ (by omega)
  rw [← hsplit] at hmul
  have hstep : r + k * 2 ^ s < (k + 1) * 2 ^ s := by
    calc r + k * 2 ^ s < 2 ^ s + k * 2 ^ s := by omega
      _ = (k + 1) * 2 ^ s := by ring
  omega

/-- Decoding the reference encoding of `k ≥ 1` with shift `s`, accumulated
value `r` and byte count `n` adds `k·2^s` to the value and the digit count
to `n`, as long as the full value stays below `2^31`. -/
theorem decodeUlebGo_natUleb (k : Nat) : 1 ≤ k → ∀ (s r n : Nat),
    r < 2 ^ s → k * 2 ^ s < 2 ^ 31 →
    decodeUlebGo (encodeNatUleb k) (r : Int) s n
      = (((r + k * 2 ^ s : Nat) : Int), n + (encodeNatUleb k).length) := by
  induction k using Nat.strong_induction_on with
  | _ k ih =>
    intro hk s r n hr hks
    have hpow : 2 ^ s ≤ k * 2 ^ s := Nat.le_mul_of_pos_left _ (by omega)
    have hs31 : s < 31 := by
      have h2 : 2 ^ s < 2 ^ 31 := lt_of_le_of_lt hpow hks
      exact (Nat.pow_lt_pow_iff_right (by norm_num)).mp h2
    have hsum := uleb_sum_bound r k s hr hk hks
    have h31num : (2 : Nat) ^ 31 = 2147483648 := by norm_num
    by_cases hk128 : k < 128
    · have henc : encodeNatUleb k = [k] := by
        rw [encodeNatUleb]
        simp [hk128]
      rw [henc, decodeUlebGo_cons, Nat.mod_eq_of_lt hk128]
      rw [show Int.ofNat k = ((k : Nat) : Int) from rfl]
      rw [jsShl_small k s (by omega) (by omega) (by omega)]
      rw [jsOr_disjoint r k s hr (by omega)]
      rw [if_pos hk128]
      simp
    · have henc : encodeNatUleb k = (k % 128 + 128) :: encodeNatUleb (k / 128) := by
        rw [encodeNatUleb]
        simp [hk128]
      have hmod : (k % 128 + 128) % 128 = k % 128 := by omega
      have hmodle : (k % 128) * 2 ^ s ≤ k * 2 ^ s :=
        Nat.mul_le_mul_right _ (Nat.mod_le k 128)
      rw [henc, decodeUlebGo_cons, hmod]
      rw [show Int.ofNat (k % 128) = ((k % 128 : Nat) : Int) from rfl]
      rw [jsShl_small (k % 128) s (by omega) (by omega) (by omega)]
      rw [jsOr_disjoint r (k % 128) s hr (by omega)]
      rw [if_neg (by omega)]
      have hdivlt : k / 128 < k := Nat.div_lt_self (by omega) (by norm_num)
      have hdiv1 : 1 ≤ k / 128 := (Nat.one_le_div_iff (by norm_num)).mpr (by omega)
      have hr' : r + (k % 128) * 2 ^ s < 2 ^ (s + 7) := by
        have hb : (k % 128) * 2 ^ s ≤ 127 * 2 ^ s :=
          Nat.mul_le_mul_right _ (by omega)
        have he : (2 : Nat) ^ (s + 7) = 128 * 2 ^ s := by
          rw [pow_add]
          ring
        omega
      have hks' : (k / 128) * 2 ^ (s + 7) < 2 ^ 31 := by
        have h1 : (k / 128) * 2 ^ (s + 7) = (k / 128 * 128) * 2 ^ s := by
          rw [pow_add]
          ring
        have h2 : (k / 128 * 128) * 2 ^ s ≤ k * 2 ^ s :=
          Nat.mul_le_mul_right _ (Nat.div_mul_le_self k 128)
        omega
      rw [ih (k / 128) hdivlt hdiv1 (s + 7) (r + (k % 128) * 2 ^ s) (n + 1) hr' hks']
      have hval : r + (k % 128) * 2 ^ s + (k / 128) * 2 ^ (s + 7) = r + k * 2 ^ s := by
        have h1 : (k / 128) * 2 ^ (s + 7) = (128 * (k / 128)) * 2 ^ s := by
          rw [pow_add]
          ring
        have h2 := Nat.mod_add_div k 128
        calc r + (k % 128) * 2 ^ s + (k / 128) * 2 ^ (s + 7)
            = r + (k % 128 + 128 * (k / 128)) * 2 ^ s := by rw [h1]; ring
          _ = r + k * 2 ^ s := by rw [h2]
      rw [hval]
      simp only [List.length_cons]
      have hlen : n + 1 + (encodeNatUleb (k / 128)).length
          = n + ((encodeNatUleb (k / 128)).length + 1) := by omega
      rw [hlen]

/-- C3 counterexample: the encoder applies int32 semantics to its input,
so at `k = 2^32` it terminates with the single byte `0`, which decodes to
`0 ≠ 2^32` — the round trip fails for a non-negative integer `k`. -/
theorem c3_counterexample_32bit_wrap :
    encodeUleb128 4294967296 = some [0] ∧
      decodeUleb128 [0] 0 = (0, 1) ∧ (0 : Int) ≠ 4294967296 :=
  ⟨by decide, by decide, by decide⟩

/-- C3 (amended): for every `k < 2^31` the ULEB128 round trip holds —
`encodeUleb128(k)` terminates with a byte list `bs`, and
`decodeUleb128(bs)` returns value `k` after reading all `bs.length`
bytes; in particular `encodeUleb128(0)` is exactly `[0x00]` and decodes
to value `0` with one byte read.  (Beyond `2^31` the int32 arithmetic of
the loops breaks the round trip, and for `2^31 ≤ k < 2^32` the encoder
does not even terminate.) -/
theorem c3_uleb_roundtrip_amended :
    (∀ k : Nat, k < 2 ^ 31 → ∃ bs, encodeUleb128 (k : Int) = some bs ∧
      decodeUleb128 bs 0 = ((k : Int), bs.length)) ∧
    encodeUleb128 0 = some [0] ∧ decodeUleb128 [0] 0 = (0, 1) := by
  refine ⟨?_, by decide, by decide⟩
  intro k hk
  by_cases hk0 : k = 0
  · subst hk0
    exact ⟨[0], by decide, by decide⟩
  · refine ⟨encodeNatUleb k, ?_, ?_⟩
    · show encodeUleb128Go 64 (k : Int) = _
      have h7 : k < 2 ^ (7 * (63 + 1)) :=
        lt_of_lt_of_le hk (Nat.pow_le_pow_right (by norm_num) (by norm_num))
      exact encodeUleb128Go_natUleb 63 k h7 hk
    · unfold decodeUleb128
      rw [List.drop_zero]
      have hmain := decodeUlebGo_natUleb k (by omega) 0 0 0 (by norm_num)
        (by simpa using hk)
      norm_num at hmain
      exact hmain

/-- C3 witness for the amended round trip at `k = 300`. -/
theorem c3_witness :
    encodeUleb128 ((300 : Nat) : Int) = some [172, 2] ∧
      decodeUleb128 [172, 2] 0 = (((300 : Nat) : Int), 2) := by
  obtain ⟨bs, henc, hdec⟩ := c3_uleb_roundtrip_amended.1 300 (by norm_num)
  have hbs : bs = [172, 2] := by
    have hconc : encodeUleb128 ((300 : Nat) : Int) = some [172, 2] := by decide
    rw [hconc] at henc
    exact (Option.some.injEq _ _).mp henc.symm
  subst hbs
  exact ⟨henc, hdec⟩

/-! ## encodeAddress lemmas -/

/-- `hexPairs` has one byte per two characters. -/
theorem hexPairs_length : ∀ l : List Char, (hexPairs l).length = l.length / 2
  | [] => by simp [hexPairs]
  | [c] => by simp [hexPairs]
  | c1 :: c2 :: rest => by
    simp only [hexPairs, List.length_cons]
    rw [hexPairs_length rest]
    omega

/-- Pairs of `'0'` padding decode to zero bytes. -/
theorem hexPairs_replicate_zero (m : Nat) (l : List Char) :
    hexPairs (List.replicate (2 * m) '0' ++ l) = List.replicate m 0 ++ hexPairs l := by
  induction m with
  | zero => simp
  | succ m ih =>
    have h2 : 2 * (m + 1) = 2 * m + 1 + 1 := by ring
    rw [h2, List.replicate_succ, List.replicate_succ, List.cons_append, List.cons_append]
    show hexPairs ('0' :: '0' :: (List.replicate (2 * m) '0' ++ l)) = _
    rw [show hexPairs ('0' :: '0' :: (List.replicate (2 * m) '0' ++ l))
        = (parseIntHex2 '0' '0').getD 0 :: hexPairs (List.replicate (2 * m) '0' ++ l)
      from rfl]
    rw [ih, show (parseIntHex2 '0' '0').getD 0 = 0 from rfl, List.replicate_succ,
      List.cons_append]

/-- A hex digit is not the letter `x`. -/
theorem hex_ne_x {c : Char} (h : isHexDigit c = true) : decide (c = 'x') = false := by
  rw [decide_eq_false_iff_not]
  intro hc
  subst hc
  exact absurd h (by decide)

/-- A string of `'0'` padding followed by hex digits never starts with
`0x`. -/
theorem starts0x_pad_false (m : Nat) (l : List Char)
    (hl : ∀ c ∈ l, isHexDigit c = true) :
    starts0x (List.replicate m '0' ++ l) = false := by
  match m, l with
  | 0, [] => rfl
  | 0, [c] => rfl
  | 0, c1 :: c2 :: t =>
    show starts0x (c1 :: c2 :: t) = false
    rw [show starts0x (c1 :: c2 :: t) = (decide (c1 = '0') && decide (c2 = 'x')) from rfl]
    rw [hex_ne_x (hl c2 (by simp)), Bool.and_false]
  | 1, [] => rfl
  | 1, c :: t =>
    show starts0x ('0' :: c :: t) = false
    rw [show starts0x ('0' :: c :: t) = (decide (('0' : Char) = '0') && decide (c = 'x'))
      from rfl]
    rw [hex_ne_x (hl c (by simp)), Bool.and_false]
  | m + 2, l =>
    show starts0x ('0' :: '0' :: (List.replicate m '0' ++ l)) = false
    rw [show starts0x ('0' :: '0' :: (List.replicate m '0' ++ l))
        = (decide (('0' : Char) = '0') && decide (('0' : Char) = 'x')) from rfl]
    decide

/-- C5 counterexample: `encodeAddress` never raises a `FormatError`.
Non-hex input silently becomes zero bytes (`parseInt` gives `NaN`, stored
as `0`), and 66 hex characters give 33 bytes rather than an error. -/
theorem c5_no_format_error_counterexample :
    encodeAddress ("zz".toList) = some (List.replicate 32 0) ∧
      encodeAddress (List.replicate 66 'a') = some (List.replicate 33 170) :=
  ⟨by decide, by decide⟩

/-- C5 (amended): `encodeAddress` performs no hex validation and raises no
`FormatError`.  For cleaned input of at most 64 hex characters it returns
exactly 32 bytes, the first `(64 - length) / 2` of them zero (the left
padding); `encodeAddress("0x1")` is 31 zero bytes followed by `0x01`.
Non-hex characters silently map through `parseInt`/`NaN` to bytes (see the
counterexample), longer even-length input yields more than 32 bytes, and
longer odd-length input hits a `RangeError` from the fractional
`Uint8Array` length (here: `none`). -/
theorem c5_encodeAddress_amended :
    (∀ s : List Char, (∀ ch ∈ drop0x s, isHexDigit ch = true) →
      (drop0x s).length ≤ 64 →
      ∃ bs, encodeAddress s = some bs ∧ bs.length = 32 ∧
        bs.take ((64 - (drop0x s).length) / 2)
          = List.replicate ((64 - (drop0x s).length) / 2) 0) ∧
    encodeAddress ("0x1".toList) = some (List.replicate 31 0 ++ [1]) ∧
    encodeAddress (List.replicate 65 'a') = none := by
  refine ⟨?_, by decide, by decide⟩
  intro s hhex hlen
  set c := drop0x s with hc
  set L := c.length with hL
  have hnot : starts0x (List.replicate (64 - L) '0' ++ c) = false :=
    starts0x_pad_false _ _ hhex
  have hdrop : drop0x (List.replicate (64 - L) '0' ++ c)
      = List.replicate (64 - L) '0' ++ c := by
    unfold drop0x
    rw [hnot]
    rfl
  have hplen : (List.replicate (64 - L) '0' ++ c).length = 64 := by
    rw [List.length_append, List.length_replicate]
    omega
  have hbytes : encodeAddress s = some (hexPairs (List.replicate (64 - L) '0' ++ c)) := by
    show hexToBytes (List.replicate (64 - L) '0' ++ c) = _
    unfold hexToBytes
    rw [hdrop]
    show (if (List.replicate (64 - L) '0' ++ c).length % 2 = 1 then none
      else some (hexPairs (List.replicate (64 - L) '0' ++ c))) = _
    rw [hplen]
    norm_num
  refine ⟨hexPairs (List.replicate (64 - L) '0' ++ c), hbytes, ?_, ?_⟩
  · rw [hexPairs_length, hplen]
  · set m := (64 - L) / 2 with hm
    rcases Nat.mod_two_eq_zero_or_one (64 - L) with hpar | hpar
    · have heq : 64 - L = 2 * m := by omega
      rw [heq, hexPairs_replicate_zero m c]
      have ht := List.take_left (List.replicate m 0) (hexPairs c)
      rw [List.length_replicate] at ht
      exact ht
    · have heq : 64 - L = 2 * m + 1 := by omega
      have hsplit : List.replicate (64 - L) '0' ++ c
          = List.replicate (2 * m) '0' ++ ('0' :: c) := by
        rw [heq, List.replicate_succ', List.append_assoc, List.singleton_append]
      rw [hsplit, hexPairs_replicate_zero m ('0' :: c)]
      have ht := List.take_left (List.replicate m 0) (hexPairs ('0' :: c))
      rw [List.length_replicate] at ht
      exact ht

/-- C5 witness for the amended theorem at the spec's example `"0x1"`. -/
theorem c5_witness :
    ∃ bs, encodeAddress ("0x1".toList) = some bs ∧ bs.length = 32 ∧
      bs.take ((64 - (drop0x ("0x1".toList)).length) / 2)
        = List.replicate ((64 - (drop0x ("0x1".toList)).length) / 2) 0 :=
  c5_encodeAddress_amended.1 ("0x1".toList) (by decide) (by decide)

/-! ## convertUnits, compareAmounts, isValidAmount -/

/-- For exponents up to 22 the JavaScript double `10 ** d` is exact. -/
theorem jsTenPow_exact : ∀ d < 23, jsTenPow d = some (10 ^ d) := by decide

/-- C7 counterexample: for `toDecimals - fromDecimals = 23` the multiplier
`BigInt(10 ** 23)` is the double rounding of `10^23`, not `10^23` itself,
so the conversion does not multiply exactly by the power of ten. -/
theorem c7_float_pow_counterexample :
    convertUnits 1 0 23 = some 99999999999999991611392 ∧
      (99999999999999991611392 : Int) ≠ 10 ^ 23 :=
  ⟨by decide, by decide⟩

/-- C7 (amended): for `|toDecimals - fromDecimals| ≤ 22` (where the double
`10 ** d` is exact), `convertUnits` multiplies exactly by
`10^(toDecimals - fromDecimals)` when positive and performs truncating
integer division (toward zero) by `10^(fromDecimals - toDecimals)` when
negative; `convertUnits(100, 2, 0) = 1` and `convertUnits(1, 0, 2) = 100`.
Beyond 22 the floating-point power is inexact (see the counterexample). -/
theorem c7_convertUnits_amended :
    (∀ a f t : Int, 0 ≤ t - f → t - f ≤ 22 →
      convertUnits a f t = some (a * 10 ^ (t - f).toNat)) ∧
    (∀ a f t : Int, -22 ≤ t - f → t - f < 0 →
      convertUnits a f t = some (a.tdiv (10 ^ (t - f).natAbs))) ∧
    convertUnits 100 2 0 = some 1 ∧ convertUnits 1 0 2 = some 100 := by
  refine ⟨?_, ?_, by decide, by decide⟩
  · intro a f t h0 h22
    by_cases hpos : 0 < t - f
    · show (if 0 < t - f then (jsTenPow (t - f).toNat).map (fun p => a * (p : Int))
        else if t - f < 0 then (jsTenPow (t - f).natAbs).map (fun p => a.tdiv (p : Int))
        else some a) = _
      rw [if_pos hpos, jsTenPow_exact _ (by omega)]
      show some (a * ((10 ^ (t - f).toNat : Nat) : Int)) = _
      push_cast
      ring_nf
    · have hz : t - f = 0 := by omega
      show (if 0 < t - f then (jsTenPow (t - f).toNat).map (fun p => a * (p : Int))
        else if t - f < 0 then (jsTenPow (t - f).natAbs).map (fun p => a.tdiv (p : Int))
        else some a) = _
      rw [if_neg hpos, if_neg (by omega), hz]
      norm_num
  · intro a f t h22 hneg
    show (if 0 < t - f then (jsTenPow (t - f).toNat).map (fun p => a * (p : Int))
      else if t - f < 0 then (jsTenPow (t - f).natAbs).map (fun p => a.tdiv (p : Int))
      else some a) = _
    rw [if_neg (by omega), if_pos hneg]
    have hlt : (t - f).natAbs < 23 := by omega
    rw [jsTenPow_exact _ hlt]
    show some (a.tdiv ((10 ^ (t - f).natAbs : Nat) : Int)) = _
    push_cast
    ring_nf

/-- C7 witness: an exact upscale and a truncating downscale through the
amended theorem. -/
theorem c7_witness :
    convertUnits 7 0 5 = some (7 * 10 ^ ((5 : Int) - 0).toNat) ∧
      convertUnits 12345 5 2 = some ((12345 : Int).tdiv (10 ^ ((2 : Int) - 5).natAbs)) :=
  ⟨c7_convertUnits_amended.1 7 0 5 (by norm_num) (by norm_num),
   c7_convertUnits_amended.2.1 12345 5 2 (by norm_num) (by norm_num)⟩

/-- C8: whenever both arguments convert (in whichever of the three
representations they arrive), `compareAmounts` returns `-1`, `1` or `0`
exactly according to the integer order of the converted values — the
result depends only on those values, not on the representations. -/
theorem c8_compareAmounts_total_order (a b : AmountInput) (x y : Int)
    (ha : toBigInt a = some x) (hb : toBigInt b = some y) :
    compareAmounts a b = some (if x < y then -1 else if y < x then 1 else 0) := by
  unfold compareAmounts
  rw [ha, hb]

/-- C8 witness: `compareAmounts(1, "2") = -1`, `compareAmounts(2n, 1) = 1`,
`compareAmounts("5", 5n) = 0` across mixed representations. -/
theorem c8_witness :
    compareAmounts (.big 1) (.str ("2".toList)) = some (-1) ∧
      compareAmounts (.big 2) (.str ("1".toList)) = some 1 ∧
      compareAmounts (.str ("5".toList)) (.big 5) = some 0 := by
  refine ⟨?_, ?_, ?_⟩
  · have h := c8_compareAmounts_total_order (.big 1) (.str ("2".toList)) 1 2
      (by decide) (by decide)
    norm_num at h
    exact h
  · have h := c8_compareAmounts_total_order (.big 2) (.str ("1".toList)) 2 1
      (by decide) (by decide)
    norm_num at h
    exact h
  · have h := c8_compareAmounts_total_order (.str ("5".toList)) (.big 5) 5 5
      (by decide) (by decide)
    norm_num at h
    exact h

/-- C9: `isValidAmount` is total (the model is a plain function into
`Bool`; nothing in the body can throw) and returns `true` exactly for
non-NaN, non-negative values in any of the three representations —
a string being judged by its `parseFloat` value; in particular
`isValidAmount(-1) = false`, `isValidAmount(0) = true`,
`isValidAmount(NaN) = false`. -/
theorem c9_isValidAmount_iff :
    (∀ v : AmountInput, isValidAmount v = true ↔
      (match v with
       | .big i => 0 ≤ i
       | .num .nan => False
       | .num .posInf => True
       | .num .negInf => False
       | .num (.fin q) => 0 ≤ q
       | .str s =>
         match parseFloatM s with
         | .nan => False
         | .posInf => True
         | .negInf => False
         | .fin q => 0 ≤ q)) ∧
    isValidAmount (.num (.fin (-1))) = false ∧
      isValidAmount (.num (.fin 0)) = true ∧
      isValidAmount (.num .nan) = false := by
  refine ⟨?_, by decide, by decide, by decide⟩
  intro v
  cases v with
  | big i => simp [isValidAmount]
  | num x => cases x <;> simp [isValidAmount]
  | str s => cases hp : parseFloatM s <;> simp [isValidAmount, hp]

/-! ## convertToMoveArg / encodeMoveArg hex handling -/

/-- On fully hex, even-length input, `Buffer.from(hex, 'hex')` decodes
every pair, agreeing with the `parseInt`-based pair decoding. -/
theorem bufferFromHex_allhex : ∀ s : List Char, (∀ ch ∈ s, isHexDigit ch = true) →
    2 ∣ s.length → bufferFromHex s = hexPairs s
  | [] => fun _ _ => rfl
  | [c] => fun _ hdvd => by
    exfalso
    simp at hdvd
  | c1 :: c2 :: rest => fun hhex hdvd => by
    have h1 := hhex c1 (by simp)
    have h2 := hhex c2 (by simp)
    unfold isHexDigit at h1 h2
    obtain ⟨d1, hd1⟩ := Option.isSome_iff_exists.mp h1
    obtain ⟨d2, hd2⟩ := Option.isSome_iff_exists.mp h2
    have hrest : 2 ∣ rest.length := by
      simp only [List.length_cons] at hdvd
      omega
    have ih := bufferFromHex_allhex rest (fun ch hch => hhex ch (by simp [hch])) hrest
    simp only [bufferFromHex, hexPairs, parseIntHex2, hd1, hd2, ih, Option.getD_some]

/-- C4 counterexample: `encodeMoveArg` itself has no hex special case —
on `vector<u8>` with a string value it calls `.map` on the string
(`value as unknown[]`), a `TypeError`, instead of encoding hex bytes. -/
theorem c4_encodeMoveArg_string_counterexample :
    encodeMoveArg ("vector<u8>".toList) (.str ("0xff".toList)) = .error .typeError := rfl

/-- C4 (amended): the hex-string shortcut lives in `convertToMoveArg`
(moveUtils.ts), not in `encodeMoveArg` (bcsUtils.ts): for a `vector<u8>`
tag and a hex string (with or without `0x` prefix) `convertToMoveArg`
returns the array of `u8` byte values of its hex-digit pairs, while
`encodeMoveArg` applied to the same string throws a `TypeError`. -/
theorem c4_convertToMoveArg_hex_amended :
    (∀ s : List Char, (∀ ch ∈ s, isHexDigit ch = true) → 2 ∣ s.length →
      convertToMoveArg (.str ('0' :: 'x' :: s)) ("vector<u8>".toList)
        = .ok (.arr ((hexPairs s).map fun b : Nat => JsValue.num (.fin (b : ℚ)))) ∧
      convertToMoveArg (.str s) ("vector<u8>".toList)
        = .ok (.arr ((hexPairs s).map fun b : Nat => JsValue.num (.fin (b : ℚ))))) ∧
    encodeMoveArg ("vector<u8>".toList) (.str ("8badf00d".toList))
      = .error .typeError := by
  refine ⟨?_, rfl⟩
  intro s hhex hdvd
  constructor
  · show Except.ok (JsValue.arr ((bufferFromHex s).map
        fun b : Nat => JsValue.num (.fin (b : ℚ))))
      = Except.ok (JsValue.arr ((hexPairs s).map
        fun b : Nat => JsValue.num (.fin (b : ℚ))))
    rw [bufferFromHex_allhex s hhex hdvd]
  · have hns : starts0x s = false := by
      have h := starts0x_pad_false 0 s hhex
      simpa using h
    show Except.ok (JsValue.arr ((bufferFromHex (if starts0x s then s.drop 2 else s)).map
        fun b : Nat => JsValue.num (.fin (b : ℚ))))
      = Except.ok (JsValue.arr ((hexPairs s).map
        fun b : Nat => JsValue.num (.fin (b : ℚ))))
    rw [hns]
    show Except.ok (JsValue.arr ((bufferFromHex s).map
        fun b : Nat => JsValue.num (.fin (b : ℚ)))) = _
    rw [bufferFromHex_allhex s hhex hdvd]

/-- C4 witness: the hex string `"0xff"` (and `"ff"`) becomes the byte
array `[255]` through `convertToMoveArg`. -/
theorem c4_witness :
    convertToMoveArg (.str ("0xff".toList)) ("vector<u8>".toList)
        = .ok (.arr ((hexPairs ("ff".toList)).map
          fun b : Nat => JsValue.num (.fin (b : ℚ)))) ∧
      convertToMoveArg (.str ("ff".toList)) ("vector<u8>".toList)
        = .ok (.arr ((hexPairs ("ff".toList)).map
          fun b : Nat => JsValue.num (.fin (b : ℚ)))) :=
  c4_convertToMoveArg_hex_amended.1 ("ff".toList) (by decide) (by decide)
